import Mathlib

/-!
Verification of the markdown-to-HTML converter (`markdown2html.py`).

The development shallowly embeds the two core components of the script:

* `parse_formatting` — the inline formatter: four sequential regex-style
  substitutions (bold `**…**`, italic `__…__`, character strip `((…))`,
  MD5 hash `[[…]]`), each a single left-to-right non-greedy pass, exactly
  as `re.sub` with a lazy `(.+?)` group behaves.
* `parse_markdown` — the per-line block classifier / state machine with
  its paragraph buffer and the two list-open flags, including the
  possibility of a Python `IndexError` (modelled as `Option.none`) at
  `line[i]` when a line consists solely of `#` characters.

Strings are modelled as `List Char`; the MD5 digest of `hashlib.md5`
is implemented in full (RFC 1321) over the UTF-8 bytes of the text.
-/

/-! ## Python string helpers -/

/-- The whitespace characters stripped by Python's `str.strip` /
`str.rstrip` (ASCII subset, which covers every input the claims use). -/
def isPySpace (c : Char) : Bool :=
  c == ' ' || c == '\t' || c == '\n' || c == '\r' || c == '\x0b' || c == '\x0c'

/-- Python `line.rstrip()`: drop trailing whitespace. -/
def pyRstrip (l : List Char) : List Char :=
  (l.reverse.dropWhile isPySpace).reverse

/-- Python `line.lstrip()`: drop leading whitespace. -/
def pyLstrip (l : List Char) : List Char :=
  l.dropWhile isPySpace

/-- Python `line.strip()`: drop whitespace at both ends. -/
def pyStrip (l : List Char) : List Char :=
  pyLstrip (pyRstrip l)

/-- Python `s.startswith(p)` (also literal matching inside the regex scan). -/
def pyStartsWith : List Char → List Char → Bool
  | [], _ => true
  | _ :: _, [] => false
  | p :: ps, c :: cs => p == c && pyStartsWith ps cs

/-- The `while i < len(line) and line[i] == '#': i += 1` loop of the
heading branch: length of the leading run of `#` characters. -/
def countHashes : List Char → Nat
  | [] => 0
  | c :: cs => if c == '#' then countHashes cs + 1 else 0

/-! ## MD5 (`hashlib.md5(...).hexdigest()`), RFC 1321 over Nat mod 2^32 -/

/-- Bitwise AND of the low `k` bits, by plain arithmetic on `Nat`. -/
def bitAnd : Nat → Nat → Nat → Nat
  | 0, _, _ => 0
  | k + 1, x, y => x % 2 * (y % 2) + 2 * bitAnd k (x / 2) (y / 2)

/-- Bitwise OR of the low `k` bits. -/
def bitOr : Nat → Nat → Nat → Nat
  | 0, _, _ => 0
  | k + 1, x, y => (x % 2 + y % 2 - x % 2 * (y % 2)) + 2 * bitOr k (x / 2) (y / 2)

/-- Bitwise XOR of the low `k` bits. -/
def bitXor : Nat → Nat → Nat → Nat
  | 0, _, _ => 0
  | k + 1, x, y => (x % 2 + y % 2) % 2 + 2 * bitXor k (x / 2) (y / 2)

def band32 (x y : Nat) : Nat := bitAnd 32 x y
def bor32 (x y : Nat) : Nat := bitOr 32 x y
def bxor32 (x y : Nat) : Nat := bitXor 32 x y

/-- 32-bit complement (arguments are always already reduced mod `2^32`). -/
def bnot32 (x : Nat) : Nat := 4294967295 - x

/-- 32-bit left rotation by `s` places. -/
def rotl32 (x s : Nat) : Nat := (x * 2 ^ s + x / 2 ^ (32 - s)) % 4294967296

/-- The 64 MD5 sine-table constants `K[i] = floor(2^32 * abs(sin(i+1)))`. -/
def md5K : List Nat :=
  [0xd76aa478, 0xe8c7b756, 0x242070db, 0xc1bdceee,
   0xf57c0faf, 0x4787c62a, 0xa8304613, 0xfd469501,
   0x698098d8, 0x8b44f7af, 0xffff5bb1, 0x895cd7be,
   0x6b901122, 0xfd987193, 0xa679438e, 0x49b40821,
   0xf61e2562, 0xc040b340, 0x265e5a51, 0xe9b6c7aa,
   0xd62f105d, 0x02441453, 0xd8a1e681, 0xe7d3fbc8,
   0x21e1cde6, 0xc33707d6, 0xf4d50d87, 0x455a14ed,
   0xa9e3e905, 0xfcefa3f8, 0x676f02d9, 0x8d2a4c8a,
   0xfffa3942, 0x8771f681, 0x6d9d6122, 0xfde5380c,
   0xa4beea44, 0x4bdecfa9, 0xf6bb4b60, 0xbebfbc70,
   0x289b7ec6, 0xeaa127fa, 0xd4ef3085, 0x04881d05,
   0xd9d4d039, 0xe6db99e5, 0x1fa27cf8, 0xc4ac5665,
   0xf4292244, 0x432aff97, 0xab9423a7, 0xfc93a039,
   0x655b59c3, 0x8f0ccc92, 0xffeff47d, 0x85845dd1,
   0x6fa87e4f, 0xfe2ce6e0, 0xa3014314, 0x4e0811a1,
   0xf7537e82, 0xbd3af235, 0x2ad7d2bb, 0xeb86d391]

/-- The 64 per-round left-rotation amounts. -/
def md5S : List Nat :=
  [7, 12, 17, 22, 7, 12, 17, 22, 7, 12, 17, 22, 7, 12, 17, 22,
   5, 9, 14, 20, 5, 9, 14, 20, 5, 9, 14, 20, 5, 9, 14, 20,
   4, 11, 16, 23, 4, 11, 16, 23, 4, 11, 16, 23, 4, 11, 16, 23,
   6, 10, 15, 21, 6, 10, 15, 21, 6, 10, 15, 21, 6, 10, 15, 21]

/-- MD5 padding: append `0x80`, zero-fill to 56 mod 64, then the original
bit length as eight little-endian bytes. -/
def md5Pad (msg : List Nat) : List Nat :=
  let len := msg.length
  let zeros := (119 - len % 64) % 64
  let b := len * 8
  msg ++ [128] ++ List.replicate zeros 0 ++
    [b % 256, b / 256 % 256, b / 65536 % 256, b / 16777216 % 256,
     b / 4294967296 % 256, b / 1099511627776 % 256,
     b / 281474976710656 % 256, b / 72057594037927936 % 256]

/-- Group a byte list into 32-bit little-endian words. -/
def leWords : List Nat → List Nat
  | b0 :: b1 :: b2 :: b3 :: rest =>
      (b0 + 256 * b1 + 65536 * b2 + 16777216 * b3) :: leWords rest
  | _ => []

/-- Group a word list into 16-word blocks. -/
def blocks16 : List Nat → List (List Nat)
  | w0 :: w1 :: w2 :: w3 :: w4 :: w5 :: w6 :: w7 ::
    w8 :: w9 :: w10 :: w11 :: w12 :: w13 :: w14 :: w15 :: rest =>
      [w0, w1, w2, w3, w4, w5, w6, w7, w8, w9, w10, w11, w12, w13, w14, w15] ::
        blocks16 rest
  | _ => []

/-- One of the 64 MD5 operations on the state `(A, B, C, D)`. -/
def md5Op (M : List Nat) (i : Nat) (st : Nat × Nat × Nat × Nat) :
    Nat × Nat × Nat × Nat :=
  match st with
  | (A, B, C, D) =>
    let fg : Nat × Nat :=
      if i < 16 then (bor32 (band32 B C) (band32 (bnot32 B) D), i)
      else if i < 32 then (bor32 (band32 D B) (band32 (bnot32 D) C), (5 * i + 1) % 16)
      else if i < 48 then (bxor32 B (bxor32 C D), (3 * i + 5) % 16)
      else (bxor32 C (bor32 B (bnot32 D)), 7 * i % 16)
    let f := (fg.1 + A + md5K.getD i 0 + M.getD fg.2 0) % 4294967296
    (D, (B + rotl32 f (md5S.getD i 0)) % 4294967296, B, C)

/-- Process one 512-bit block: run the 64 operations, then add the result
into the incoming state, word-wise mod `2^32`. -/
def md5Chunk (st : Nat × Nat × Nat × Nat) (M : List Nat) :
    Nat × Nat × Nat × Nat :=
  match (List.range 64).foldl (fun t i => md5Op M i t) st, st with
  | (A, B, C, D), (a0, b0, c0, d0) =>
    ((a0 + A) % 4294967296, (b0 + B) % 4294967296,
     (c0 + C) % 4294967296, (d0 + D) % 4294967296)

/-- A 32-bit word as four little-endian bytes. -/
def wordLEBytes (w : Nat) : List Nat :=
  [w % 256, w / 256 % 256, w / 65536 % 256, w / 16777216 % 256]

/-- The 16-byte MD5 digest of a byte sequence. -/
def md5Digest (bytes : List Nat) : List Nat :=
  match (blocks16 (leWords (md5Pad bytes))).foldl md5Chunk
      (0x67452301, 0xefcdab89, 0x98badcfe, 0x10325476) with
  | (a, b, c, d) => wordLEBytes a ++ wordLEBytes b ++ wordLEBytes c ++ wordLEBytes d

/-- One lowercase hexadecimal digit. -/
def hexChar (n : Nat) : Char :=
  if n < 10 then Char.ofNat (48 + n) else Char.ofNat (87 + n)

/-- A byte as two lowercase hexadecimal characters. -/
def hexByte (b : Nat) : List Char := [hexChar (b / 16), hexChar (b % 16)]

/-- Python `s.encode()`: UTF-8 bytes of one character. -/
def utf8Bytes (c : Char) : List Nat :=
  let n := c.toNat
  if n < 128 then [n]
  else if n < 2048 then [192 + n / 64, 128 + n % 64]
  else if n < 65536 then [224 + n / 4096, 128 + n / 64 % 64, 128 + n % 64]
  else [240 + n / 262144, 128 + n / 4096 % 64, 128 + n / 64 % 64, 128 + n % 64]

/-- Python `s.encode()`: UTF-8 bytes of a string. -/
def encodeUtf8 (s : List Char) : List Nat := (s.map utf8Bytes).flatten

/-- Python `hashlib.md5(s.encode()).hexdigest()`. -/
def md5Hex (s : List Char) : List Char :=
  ((md5Digest (encodeUtf8 s)).map hexByte).flatten

/-! ## `re.sub` with a lazy `(.+?)` group between two literal delimiters

`re.sub(op + "(.+?)" + cl, f, text)` scans left to right; at each
position it first tries to match the literal `op`, then extends the lazy
group one character at a time (each character must match `.`, so it may
not be a newline) until the literal `cl` matches; on success the whole
match is replaced by `f` of the group and scanning resumes after the
match, otherwise the scan advances one character. -/

/-- Lazy-group search: the shortest non-empty newline-free prefix followed
by the closing delimiter `cl`; returns the group and the text after the
close.  `none` means the pattern cannot match at this position. -/
def findClose (cl : List Char) : List Char → Option (List Char × List Char)
  | [] => none
  | c :: cs =>
    if c == '\n' then none
    else if pyStartsWith cl cs then some ([c], cs.drop cl.length)
    else
      match findClose cl cs with
      | some (content, rest) => some (c :: content, rest)
      | none => none

/-- The substitution scan; `fuel` bounds the number of steps (each step
consumes at least one character, so the text's length is enough fuel). -/
def substAux (op cl : List Char) (f : List Char → List Char) :
    Nat → List Char → List Char
  | _, [] => []
  | 0, t => t
  | fuel + 1, c :: cs =>
    if pyStartsWith op (c :: cs) then
      match findClose cl ((c :: cs).drop op.length) with
      | some (content, rest) => f content ++ substAux op cl f fuel rest
      | none => c :: substAux op cl f fuel cs
    else c :: substAux op cl f fuel cs

/-- `re.sub(op + "(.+?)" + cl, fun m => f m.group(1), t)`. -/
def reSub (op cl : List Char) (f : List Char → List Char) (t : List Char) :
    List Char :=
  substAux op cl f t.length t

/-! ## `parse_formatting` -/

/-- The `remove_c` callback: `match.group(1).replace('c', '').replace('C', '')`. -/
def remove_c (s : List Char) : List Char :=
  (s.filter (fun c => !(c == 'c'))).filter (fun c => !(c == 'C'))

/-- `parse_formatting`: the four substitutions in the source's order —
bold, italic, character strip, MD5 hash. -/
def parse_formatting (text : List Char) : List Char :=
  let t1 := reSub ['*', '*'] ['*', '*']
    (fun s => ("<b>".toList) ++ s ++ ("</b>".toList)) text
  let t2 := reSub ['_', '_'] ['_', '_']
    (fun s => ("<em>".toList) ++ s ++ ("</em>".toList)) t1
  let t3 := reSub ['(', '('] [')', ')'] remove_c t2
  reSub ['[', '['] [']', ']'] md5Hex t3

/-! ## `parse_markdown` -/

/-- The mutable context of the classification loop: emitted HTML lines,
the two list-open flags and the paragraph buffer. -/
structure MDState where
  html_lines : List (List Char)
  in_ul : Bool
  in_ol : Bool
  paragraph_lines : List (List Char)
deriving DecidableEq, Repr

def initState : MDState := ⟨[], false, false, []⟩

/-- The lines a non-empty paragraph buffer flushes to: `<p>`, the first
line's formatted text, `<br/>`-prefixed formatted text for each later
line, `</p>`.  An empty buffer flushes to nothing. -/
def pBlockLines : List (List Char) → List (List Char)
  | [] => []
  | p :: ps =>
    ("<p>".toList) :: parse_formatting p ::
      ps.map (fun q => ("<br/>".toList) ++ parse_formatting q) ++ [("</p>".toList)]

/-- `flush_paragraph`: convert the buffered lines to HTML and clear the buffer. -/
def flush_paragraph (s : MDState) : MDState :=
  { s with html_lines := s.html_lines ++ pBlockLines s.paragraph_lines,
           paragraph_lines := [] }

/-- `if in_ul: html_lines.append("</ul>"); in_ul = False`. -/
def closeUl (s : MDState) : MDState :=
  if s.in_ul then
    { s with html_lines := s.html_lines ++ [("</ul>".toList)], in_ul := false }
  else s

/-- `if in_ol: html_lines.append("</ol>"); in_ol = False`. -/
def closeOl (s : MDState) : MDState :=
  if s.in_ol then
    { s with html_lines := s.html_lines ++ [("</ol>".toList)], in_ol := false }
  else s

/-- The f-string `f"<h{i}>{content}</h{i}>"`. -/
def hTagLine (i : Nat) (content : List Char) : List Char :=
  ("<h".toList) ++ (Nat.repr i).toList ++ (">".toList) ++ content ++
    ("</h".toList) ++ (Nat.repr i).toList ++ (">".toList)

/-- The f-string `f"<li>{content}</li>"`. -/
def liLine (content : List Char) : List Char :=
  ("<li>".toList) ++ content ++ ("</li>".toList)

/-- The tail of the per-line dispatch: the `'- '` branch, the `'* '`
branch, and the final paragraph-buffer append. -/
def listOrPara (s : MDState) (line : List Char) : MDState :=
  if pyStartsWith ['-', ' '] line then
    let s1 := closeOl (flush_paragraph s)
    let s2 :=
      if s1.in_ul then s1
      else { s1 with html_lines := s1.html_lines ++ [("<ul>".toList)], in_ul := true }
    { s2 with html_lines :=
        s2.html_lines ++ [liLine (parse_formatting (pyStrip (line.drop 2)))] }
  else if pyStartsWith ['*', ' '] line then
    let s1 := closeUl (flush_paragraph s)
    let s2 :=
      if s1.in_ol then s1
      else { s1 with html_lines := s1.html_lines ++ [("<ol>".toList)], in_ol := true }
    { s2 with html_lines :=
        s2.html_lines ++ [liLine (parse_formatting (pyStrip (line.drop 2)))] }
  else { s with paragraph_lines := s.paragraph_lines ++ [line] }

/-- The heading emission: close any open list, then append
`f"<h{i}>{parse_formatting(line[i+1:].strip())}</h{i}>"`. -/
def emitHeading (i : Nat) (line : List Char) (s : MDState) : MDState :=
  let s1 := closeOl (closeUl s)
  { s1 with html_lines :=
      s1.html_lines ++ [hTagLine i (parse_formatting (pyStrip (line.drop (i + 1))))] }

/-- One iteration of the `for line in lines` loop.  `none` models the
`IndexError` that `line[i]` raises when the rstripped line consists of
one to six `#` characters and nothing else (`i == len(line)`). -/
def process_line (s : MDState) (rawLine : List Char) : Option MDState :=
  let line := pyRstrip rawLine
  if line.all isPySpace then
    some (closeOl (closeUl (flush_paragraph s)))
  else if pyStartsWith ['#'] line then
    let s1 := flush_paragraph s
    let i := countHashes line
    if 1 ≤ i ∧ i ≤ 6 then
      match line.get? i with
      | none => none
      | some ch =>
        if ch == ' ' then some (emitHeading i line s1)
        else some (listOrPara s1 line)
    else some (listOrPara s1 line)
  else some (listOrPara s line)

/-- `parse_markdown(lines)`: fold the loop body over the lines, then the
epilogue — flush the paragraph buffer and close any open list.  `none`
models an uncaught `IndexError`. -/
def parse_markdown (lines : List (List Char)) : Option (List (List Char)) :=
  match lines.foldlM process_line initState with
  | none => none
  | some s => some (closeOl (closeUl (flush_paragraph s))).html_lines

/-! ## Lemmas about the substitution scan -/

theorem pyStartsWith_self_append (p rest : List Char) :
    pyStartsWith p (p ++ rest) = true := by
  induction p with
  | nil => rfl
  | cons a as ih => simp [pyStartsWith, ih]

theorem eq_append_of_pyStartsWith {p s : List Char}
    (h : pyStartsWith p s = true) : s = p ++ s.drop p.length := by
  induction p generalizing s with
  | nil => simp
  | cons a as ih =>
    cases s with
    | nil => simp [pyStartsWith] at h
    | cons c cs =>
      simp only [pyStartsWith, Bool.and_eq_true, beq_iff_eq] at h
      obtain ⟨rfl, h2⟩ := h
      simpa using ih h2

theorem pyStartsWith_cons_false {a c : Char} {ps cs : List Char}
    (h : a ≠ c) : pyStartsWith (a :: ps) (c :: cs) = false := by
  simp [pyStartsWith, h]

theorem findClose_cons (cl : List Char) (c : Char) (cs : List Char) :
    findClose cl (c :: cs) =
      if c == '\n' then none
      else if pyStartsWith cl cs then some ([c], cs.drop cl.length)
      else
        match findClose cl cs with
        | some (content, rest) => some (c :: content, rest)
        | none => none := rfl

/-- A successful lazy-group search decomposes the text as
`group ++ close ++ rest`, with a non-empty group. -/
theorem findClose_shape {cl t content rest : List Char}
    (h : findClose cl t = some (content, rest)) :
    content ≠ [] ∧ t = content ++ cl ++ rest := by
  induction t generalizing content rest with
  | nil => simp [findClose] at h
  | cons c cs ih =>
    rw [findClose_cons] at h
    split at h
    · exact absurd h (by simp)
    · split at h
      · rename_i hsw
        injection h with h'
        injection h' with h1 h2
        subst h1; subst h2
        refine ⟨by simp, ?_⟩
        conv_lhs => rw [eq_append_of_pyStartsWith hsw]
        simp
      · revert h
        match hfc : findClose cl cs with
        | none => intro h; exact absurd h (by simp)
        | some (content', rest') =>
          intro h
          injection h with h'
          injection h' with h1 h2
          subst h1; subst h2
          obtain ⟨hne, heq⟩ := ih hfc
          exact ⟨by simp, by simp [hne, ← heq]⟩

theorem findClose_rest_length {cl t content rest : List Char}
    (h : findClose cl t = some (content, rest)) :
    rest.length < t.length := by
  obtain ⟨hne, rfl⟩ := findClose_shape h
  have : 0 < content.length := List.length_pos.mpr hne
  simp only [List.length_append]
  omega

/-- The scan's result does not depend on the fuel, once the fuel covers
the text's length. -/
theorem substAux_fuel_eq (op cl : List Char) (f : List Char → List Char) :
    ∀ (f1 : Nat) (t : List Char) (f2 : Nat), t.length ≤ f1 → t.length ≤ f2 →
      substAux op cl f f1 t = substAux op cl f f2 t := by
  intro f1
  induction f1 with
  | zero =>
    intro t f2 h1 _
    have : t = [] := List.length_eq_zero.mp (Nat.le_zero.mp h1)
    subst this
    cases f2 <;> rfl
  | succ k ih =>
    intro t f2 h1 h2
    cases t with
    | nil => cases f2 <;> rfl
    | cons c cs =>
      cases f2 with
      | zero => simp at h2
      | succ k2 =>
        simp only [substAux]
        split
        · split
          · rename_i hsw content rest hfc
            have hd : (List.drop op.length (c :: cs)).length ≤ (c :: cs).length := by
              rw [List.length_drop]; omega
            have hr : rest.length < (c :: cs).length :=
              Nat.lt_of_lt_of_le (findClose_rest_length hfc) hd
            simp only [List.length_cons] at hr h1 h2
            rw [ih rest k2 (by omega) (by omega)]
          · rw [ih cs k2 (by simp_all) (by simp_all)]
        · rw [ih cs k2 (by simp_all) (by simp_all)]

theorem substAux_eq_reSub {op cl : List Char} {f : List Char → List Char}
    {fuel : Nat} {t : List Char} (h : t.length ≤ fuel) :
    substAux op cl f fuel t = reSub op cl f t :=
  substAux_fuel_eq op cl f fuel t t.length h (Nat.le_refl _)

/-- If the opening delimiter's first character does not occur in the
text, the substitution leaves the text unchanged. -/
theorem reSub_eq_self_of_not_mem {o : Char} {ops cl : List Char}
    {f : List Char → List Char} {t : List Char} (h : o ∉ t) :
    reSub (o :: ops) cl f t = t := by
  suffices H : ∀ fuel (t : List Char), o ∉ t → substAux (o :: ops) cl f fuel t = t by
    exact H t.length t h
  intro fuel
  induction fuel with
  | zero => intro t _; cases t <;> rfl
  | succ k ih =>
    intro t ht
    cases t with
    | nil => rfl
    | cons c cs =>
      have hne : o ≠ c := fun he => ht (he ▸ List.mem_cons_self c cs)
      simp only [substAux, pyStartsWith_cons_false hne, Bool.false_eq_true,
        if_false]
      rw [ih cs (fun hm => ht (List.mem_cons_of_mem c hm))]

/-- The scan walks over a chunk free of the opening delimiter's first
character and continues on the rest. -/
theorem reSub_append_of_not_mem {o : Char} {ops cl : List Char}
    {f : List Char → List Char} {pre rest : List Char} (h : o ∉ pre) :
    reSub (o :: ops) cl f (pre ++ rest) = pre ++ reSub (o :: ops) cl f rest := by
  induction pre with
  | nil => simp
  | cons c cs ih =>
    have hne : o ≠ c := fun he => h (he ▸ List.mem_cons_self c cs)
    show substAux (o :: ops) cl f ((c :: cs ++ rest).length) (c :: (cs ++ rest)) = _
    simp only [List.length_cons, substAux, pyStartsWith_cons_false hne,
      Bool.false_eq_true, if_false]
    rw [substAux_eq_reSub (by simp), ih (fun hm => h (List.mem_cons_of_mem c hm))]
    simp

/-- The lazy group search on `text ++ close ++ post` finds exactly `text`
when `text` is non-empty, newline-free and free of the close's character
(all four delimiters of the formatter are doubled characters). -/
theorem findClose_exact {c : Char} {text post : List Char}
    (hne : text ≠ []) (hnl : '\n' ∉ text) (hc : c ∉ text) :
    findClose [c, c] (text ++ c :: c :: post) = some (text, post) := by
  induction text with
  | nil => exact absurd rfl hne
  | cons a as ih =>
    have ha : ¬((a == '\n') = true) := by
      simp only [beq_iff_eq]
      exact fun he => hnl (he ▸ List.mem_cons_self a as)
    cases as with
    | nil =>
      show findClose [c, c] (a :: c :: c :: post) = some ([a], post)
      rw [findClose_cons, if_neg ha, if_pos (by simp [pyStartsWith])]
      rfl
    | cons b bs =>
      have hb : c ≠ b := fun he => hc (by rw [he]; simp)
      have ih' : findClose [c, c] (b :: (bs ++ c :: c :: post)) = some (b :: bs, post) := by
        have := ih (by simp) (fun hm => hnl (List.mem_cons_of_mem a hm))
          (fun hm => hc (List.mem_cons_of_mem a hm))
        simpa using this
      show findClose [c, c] (a :: (b :: (bs ++ c :: c :: post))) = some (a :: b :: bs, post)
      rw [findClose_cons, if_neg ha,
        if_neg (by rw [pyStartsWith_cons_false hb]; simp), ih']

/-- The head replacement step for a doubled-character delimiter pair:
on `o o text c c post` the scan substitutes `f text` and continues on
`post`. -/
theorem reSub_head_match {o c : Char} {f : List Char → List Char}
    {text post : List Char}
    (hne : text ≠ []) (hnl : '\n' ∉ text) (hc : c ∉ text) :
    reSub [o, o] [c, c] f (o :: o :: (text ++ c :: c :: post)) =
      f text ++ reSub [o, o] [c, c] f post := by
  show substAux [o, o] [c, c] f ((text ++ c :: c :: post).length + 1 + 1)
      (o :: o :: (text ++ c :: c :: post)) = _
  simp only [substAux]
  rw [if_pos (by simp [pyStartsWith])]
  have hd : List.drop ([o, o] : List Char).length (o :: o :: (text ++ c :: c :: post)) =
      text ++ c :: c :: post := rfl
  rw [hd, findClose_exact hne hnl hc]
  have hl : post.length ≤ (text ++ c :: c :: post).length + 1 := by
    simp only [List.length_append, List.length_cons]
    omega
  show f text ++ substAux [o, o] [c, c] f ((text ++ c :: c :: post).length + 1) post =
    f text ++ reSub [o, o] [c, c] f post
  rw [substAux_eq_reSub hl]

/-! ## Plain text: characters that no formatting rule reacts to -/

/-- A character any of the four rules' delimiters could involve (plus
newline, which the lazy group may never contain). -/
def fmtDelim (x : Char) : Bool :=
  x == '*' || x == '_' || x == '(' || x == ')' || x == '[' || x == ']' || x == '\n'

/-- A string whose characters are all inert for the inline formatter. -/
def noFmtChar (s : List Char) : Prop := ∀ x ∈ s, fmtDelim x = false

instance noFmtChar.decidable (s : List Char) : Decidable (noFmtChar s) :=
  inferInstanceAs (Decidable (∀ x ∈ s, fmtDelim x = false))

theorem noFmt_not_mem {x : Char} {s : List Char} (hs : noFmtChar s)
    (hx : fmtDelim x = true) : x ∉ s := by
  intro hm
  rw [hs x hm] at hx
  exact Bool.false_ne_true hx

theorem mem_of_mem_remove_c {x : Char} {u : List Char}
    (h : x ∈ remove_c u) : x ∈ u :=
  (List.mem_filter.mp (List.mem_filter.mp h).1).1

theorem not_mem_shape {x o c : Char} {pre text post : List Char}
    (hx : fmtDelim x = true) (hpre : noFmtChar pre) (htext : noFmtChar text)
    (hpost : noFmtChar post) (hxo : x ≠ o) (hxc : x ≠ c) :
    x ∉ pre ++ (o :: o :: (text ++ c :: c :: post)) := by
  intro hm
  simp only [List.mem_append, List.mem_cons] at hm
  rcases hm with h | h | h | h | h | h | h
  · exact noFmt_not_mem hpre hx h
  · exact hxo h
  · exact hxo h
  · exact noFmt_not_mem htext hx h
  · exact hxc h
  · exact hxc h
  · exact noFmt_not_mem hpost hx h

theorem not_mem_append_three {x : Char} {a b c : List Char}
    (ha : x ∉ a) (hb : x ∉ b) (hc : x ∉ c) : x ∉ a ++ (b ++ c) := by
  simp only [List.mem_append]
  intro hm
  rcases hm with h | h | h
  · exact ha h
  · exact hb h
  · exact hc h

set_option maxRecDepth 100000 in
/-- C6: the inline formatter applies its substitutions in the fixed order
bold, italic, character-strip, hash; `[[text]]` becomes the 32-character
lowercase hex MD5 digest of the text's bytes as they stand at that point
of the pipeline (after the earlier substitutions already ran on them):
`[[abc]]` gives the digest of `abc`; `[[((abc))]]` hashes `ab` (the strip
ran first); `[[**a**]]` hashes `<b>a</b>` (the bold wrap ran first); and
`((c__c__))` strips the italic output `c<em>c</em>` (italic ran before
strip), giving `<em></em>`. -/
theorem inline_order_and_md5_spec :
    parse_formatting (("[[abc]]").toList) = ("900150983cd24fb0d6963f7d28e17f72").toList
  ∧ (parse_formatting (("[[abc]]").toList)).length = 32
  ∧ parse_formatting (("[[((abc))]]").toList) = md5Hex (("ab").toList)
  ∧ md5Hex (("ab").toList) = ("187ef4436122d1cc2f40dc2b92f0eba0").toList
  ∧ parse_formatting (("[[**a**]]").toList) = md5Hex (("<b>a</b>").toList)
  ∧ md5Hex (("<b>a</b>").toList) = ("d0d0b371e07faa35478d8dde673a8cc5").toList
  ∧ parse_formatting (("((c__c__))").toList) = ("<em></em>").toList := by
  exact ⟨by decide, by decide, by decide, by decide, by decide, by decide, by decide⟩

/-- C7: every `((text))` occurrence (non-greedy) is replaced by the text
with every `c` and `C` removed and nothing else altered; `((coffee))`
gives `offee`; several occurrences on one line are all substituted. -/
theorem strip_directive_spec (pre text post : List Char)
    (hpre : noFmtChar pre) (htext : noFmtChar text) (hpost : noFmtChar post)
    (hne : text ≠ []) :
    parse_formatting (pre ++ ('(' :: '(' :: (text ++ ')' :: ')' :: post)))
        = pre ++ (remove_c text ++ post)
      ∧ remove_c text = text.filter (fun x => !(x == 'c' || x == 'C'))
      ∧ parse_formatting (("((coffee))").toList) = ("offee").toList
      ∧ parse_formatting (("((ca))((Cb))").toList) = ("ab").toList := by
  refine ⟨?_, ?_, by decide, by decide⟩
  · have hnl : '\n' ∉ text := noFmt_not_mem htext (by decide)
    have hrp : ')' ∉ text := noFmt_not_mem htext (by decide)
    have hstar : '*' ∉ pre ++ ('(' :: '(' :: (text ++ ')' :: ')' :: post)) :=
      not_mem_shape (by decide) hpre htext hpost (by decide) (by decide)
    have hunder : '_' ∉ pre ++ ('(' :: '(' :: (text ++ ')' :: ')' :: post)) :=
      not_mem_shape (by decide) hpre htext hpost (by decide) (by decide)
    have hpp : '(' ∉ pre := noFmt_not_mem hpre (by decide)
    have hpq : '(' ∉ post := noFmt_not_mem hpost (by decide)
    have hbr : '[' ∉ pre ++ (remove_c text ++ post) :=
      not_mem_append_three (noFmt_not_mem hpre (by decide))
        (fun hm => noFmt_not_mem htext (by decide) (mem_of_mem_remove_c hm))
        (noFmt_not_mem hpost (by decide))
    simp only [parse_formatting]
    rw [reSub_eq_self_of_not_mem hstar, reSub_eq_self_of_not_mem hunder,
      reSub_append_of_not_mem hpp, reSub_head_match hne hnl hrp,
      reSub_eq_self_of_not_mem hpq, reSub_eq_self_of_not_mem hbr]
  · simp only [remove_c, List.filter_filter, Bool.not_or]
    exact List.filter_congr fun a _ => by
      cases h1 : (a == 'c') <;> cases h2 : (a == 'C') <;> simp [h1, h2]

theorem strip_directive_spec_witness :
    parse_formatting ([] ++ ('(' :: '(' :: (("coffee").toList ++ ')' :: ')' :: [])))
        = [] ++ (remove_c (("coffee").toList) ++ [])
      ∧ parse_formatting (("((coffee))").toList) = ("offee").toList :=
  have h := strip_directive_spec [] (("coffee").toList) []
    (by decide) (by decide) (by decide) (by decide)
  ⟨h.1, h.2.2.1⟩

/-- C8: every non-greedy `**text**` occurrence becomes the text wrapped in
a bold tag and every non-greedy `__text__` occurrence becomes the text in
an emphasis tag; unmatched or unbalanced delimiters are left as literal
text and no error is raised (the function is total); `**a**b**` shows the
shortest-span match with the unmatched tail kept literally. -/
theorem bold_italic_spec (pre text post : List Char)
    (hpre : noFmtChar pre) (htext : noFmtChar text) (hpost : noFmtChar post)
    (hne : text ≠ []) :
    parse_formatting (pre ++ ('*' :: '*' :: (text ++ '*' :: '*' :: post)))
        = pre ++ ((("<b>").toList ++ text ++ ("</b>").toList) ++ post)
      ∧ parse_formatting (pre ++ ('_' :: '_' :: (text ++ '_' :: '_' :: post)))
        = pre ++ ((("<em>").toList ++ text ++ ("</em>").toList) ++ post)
      ∧ parse_formatting (("**bold").toList) = ("**bold").toList
      ∧ parse_formatting (("**a**b**").toList) = ("<b>a</b>b**").toList
      ∧ parse_formatting (("__it").toList) = ("__it").toList
      ∧ parse_formatting (("**bold**").toList) = ("<b>bold</b>").toList
      ∧ parse_formatting (("__it__").toList) = ("<em>it</em>").toList := by
  have hnl : '\n' ∉ text := noFmt_not_mem htext (by decide)
  refine ⟨?_, ?_, by decide, by decide, by decide, by decide, by decide⟩
  · have hst : '*' ∉ text := noFmt_not_mem htext (by decide)
    have hpp : '*' ∉ pre := noFmt_not_mem hpre (by decide)
    have hpq : '*' ∉ post := noFmt_not_mem hpost (by decide)
    have hwrap : ∀ x : Char, fmtDelim x = true → x ≠ '<' → x ≠ 'b' → x ≠ '>' → x ≠ '/' →
        x ∉ pre ++ ((("<b>").toList ++ text ++ ("</b>").toList) ++ post) := by
      intro x hx h1 h2 h3 h4
      refine not_mem_append_three (noFmt_not_mem hpre hx) ?_ (noFmt_not_mem hpost hx)
      intro hm
      simp only [List.mem_append] at hm
      rcases hm with (h | h) | h
      · revert h
        simp [h1, h2, h3]
      · exact noFmt_not_mem htext hx h
      · revert h
        simp [h1, h2, h3, h4]
    have h1 : reSub ['*', '*'] ['*', '*']
        (fun s => (("<b>").toList) ++ s ++ (("</b>").toList))
        (pre ++ ('*' :: '*' :: (text ++ '*' :: '*' :: post)))
        = pre ++ ((("<b>").toList ++ text ++ ("</b>").toList) ++ post) := by
      rw [reSub_append_of_not_mem hpp, reSub_head_match hne hnl hst,
        reSub_eq_self_of_not_mem hpq]
    have h2 := @reSub_eq_self_of_not_mem '_' ['_'] ['_', '_']
      (fun s => (("<em>").toList) ++ s ++ (("</em>").toList)) _
      (hwrap '_' (by decide) (by decide) (by decide) (by decide) (by decide))
    have h3 := @reSub_eq_self_of_not_mem '(' ['('] [')', ')'] remove_c _
      (hwrap '(' (by decide) (by decide) (by decide) (by decide) (by decide))
    have h4 := @reSub_eq_self_of_not_mem '[' ['['] [']', ']'] md5Hex _
      (hwrap '[' (by decide) (by decide) (by decide) (by decide) (by decide))
    simp only [parse_formatting]
    rw [h1, h2, h3, h4]
  · have hst : '_' ∉ text := noFmt_not_mem htext (by decide)
    have hpp : '_' ∉ pre := noFmt_not_mem hpre (by decide)
    have hpq : '_' ∉ post := noFmt_not_mem hpost (by decide)
    have hb : '*' ∉ pre ++ ('_' :: '_' :: (text ++ '_' :: '_' :: post)) :=
      not_mem_shape (by decide) hpre htext hpost (by decide) (by decide)
    have hwrap : ∀ x : Char, fmtDelim x = true → x ≠ '<' → x ≠ 'e' → x ≠ 'm' →
        x ≠ '>' → x ≠ '/' →
        x ∉ pre ++ ((("<em>").toList ++ text ++ ("</em>").toList) ++ post) := by
      intro x hx h1 h2 h3 h4 h5
      refine not_mem_append_three (noFmt_not_mem hpre hx) ?_ (noFmt_not_mem hpost hx)
      intro hm
      simp only [List.mem_append] at hm
      rcases hm with (h | h) | h
      · revert h
        simp [h1, h2, h3, h4]
      · exact noFmt_not_mem htext hx h
      · revert h
        simp [h1, h2, h3, h4, h5]
    have h1 := @reSub_eq_self_of_not_mem '*' ['*'] ['*', '*']
      (fun s => (("<b>").toList) ++ s ++ (("</b>").toList)) _ hb
    have h2 : reSub ['_', '_'] ['_', '_']
        (fun s => (("<em>").toList) ++ s ++ (("</em>").toList))
        (pre ++ ('_' :: '_' :: (text ++ '_' :: '_' :: post)))
        = pre ++ ((("<em>").toList ++ text ++ ("</em>").toList) ++ post) := by
      rw [reSub_append_of_not_mem hpp, reSub_head_match hne hnl hst,
        reSub_eq_self_of_not_mem hpq]
    have h3 := @reSub_eq_self_of_not_mem '(' ['('] [')', ')'] remove_c _
      (hwrap '(' (by decide) (by decide) (by decide) (by decide) (by decide) (by decide))
    have h4 := @reSub_eq_self_of_not_mem '[' ['['] [']', ']'] md5Hex _
      (hwrap '[' (by decide) (by decide) (by decide) (by decide) (by decide) (by decide))
    simp only [parse_formatting]
    rw [h1, h2, h3, h4]

theorem bold_italic_spec_witness :
    parse_formatting (("**bold**").toList) = ("<b>bold</b>").toList
  ∧ parse_formatting (("__it__").toList) = ("<em>it</em>").toList :=
  have h := bold_italic_spec [] (("x").toList) []
    (by decide) (by decide) (by decide) (by decide)
  ⟨h.2.2.2.2.2.1, h.2.2.2.2.2.2⟩

/-! ## Branch lemmas for the classification loop -/

theorem flush_in_ul (s : MDState) : (flush_paragraph s).in_ul = s.in_ul := rfl

theorem flush_in_ol (s : MDState) : (flush_paragraph s).in_ol = s.in_ol := rfl

theorem flush_para (s : MDState) : (flush_paragraph s).paragraph_lines = [] := rfl

theorem closeUl_in_ul (s : MDState) : (closeUl s).in_ul = false := by
  unfold closeUl
  split <;> simp_all

theorem closeUl_in_ol (s : MDState) : (closeUl s).in_ol = s.in_ol := by
  unfold closeUl
  split <;> rfl

theorem closeUl_para (s : MDState) :
    (closeUl s).paragraph_lines = s.paragraph_lines := by
  unfold closeUl
  split <;> rfl

theorem closeOl_in_ol (s : MDState) : (closeOl s).in_ol = false := by
  unfold closeOl
  split <;> simp_all

theorem closeOl_in_ul (s : MDState) : (closeOl s).in_ul = s.in_ul := by
  unfold closeOl
  split <;> rfl

theorem closeOl_para (s : MDState) :
    (closeOl s).paragraph_lines = s.paragraph_lines := by
  unfold closeOl
  split <;> rfl

theorem emitHeading_in_ul (i : Nat) (l : List Char) (s : MDState) :
    (emitHeading i l s).in_ul = false := by
  show (closeOl (closeUl s)).in_ul = false
  rw [closeOl_in_ul, closeUl_in_ul]

theorem emitHeading_in_ol (i : Nat) (l : List Char) (s : MDState) :
    (emitHeading i l s).in_ol = false := by
  show (closeOl (closeUl s)).in_ol = false
  rw [closeOl_in_ol]

theorem emitHeading_para (i : Nat) (l : List Char) (s : MDState) :
    (emitHeading i l s).paragraph_lines = s.paragraph_lines := by
  show (closeOl (closeUl s)).paragraph_lines = s.paragraph_lines
  rw [closeOl_para, closeUl_para]

theorem process_line_blank {s : MDState} {raw : List Char}
    (h : (pyRstrip raw).all isPySpace = true) :
    process_line s raw = some (closeOl (closeUl (flush_paragraph s))) := by
  simp [process_line, h]

theorem process_line_hash_heading {s : MDState} {raw : List Char}
    (hb : (pyRstrip raw).all isPySpace = false)
    (hh : pyStartsWith ['#'] (pyRstrip raw) = true)
    (hi : 1 ≤ countHashes (pyRstrip raw) ∧ countHashes (pyRstrip raw) ≤ 6)
    (hs : (pyRstrip raw).get? (countHashes (pyRstrip raw)) = some ' ') :
    process_line s raw =
      some (emitHeading (countHashes (pyRstrip raw)) (pyRstrip raw)
        (flush_paragraph s)) := by
  have hs' : (pyRstrip raw)[countHashes (pyRstrip raw)]? = some ' ' := by
    rw [← List.get?_eq_getElem?]; exact hs
  simp [process_line, hb, hh, hi, hs']

theorem process_line_crash {s : MDState} {raw : List Char}
    (hb : (pyRstrip raw).all isPySpace = false)
    (hh : pyStartsWith ['#'] (pyRstrip raw) = true)
    (hi : 1 ≤ countHashes (pyRstrip raw) ∧ countHashes (pyRstrip raw) ≤ 6)
    (hn : (pyRstrip raw).get? (countHashes (pyRstrip raw)) = none) :
    process_line s raw = none := by
  have hn' : (pyRstrip raw)[countHashes (pyRstrip raw)]? = none := by
    rw [← List.get?_eq_getElem?]; exact hn
  simp [process_line, hb, hh, hi, hn']

theorem process_line_hash_fall_nonspace {s : MDState} {raw : List Char} {ch : Char}
    (hb : (pyRstrip raw).all isPySpace = false)
    (hh : pyStartsWith ['#'] (pyRstrip raw) = true)
    (hi : 1 ≤ countHashes (pyRstrip raw) ∧ countHashes (pyRstrip raw) ≤ 6)
    (hc : (pyRstrip raw).get? (countHashes (pyRstrip raw)) = some ch)
    (hne : ch ≠ ' ') :
    process_line s raw = some (listOrPara (flush_paragraph s) (pyRstrip raw)) := by
  have hc' : (pyRstrip raw)[countHashes (pyRstrip raw)]? = some ch := by
    rw [← List.get?_eq_getElem?]; exact hc
  simp [process_line, hb, hh, hi, hc', hne]

theorem process_line_hash_fall_big {s : MDState} {raw : List Char}
    (hb : (pyRstrip raw).all isPySpace = false)
    (hh : pyStartsWith ['#'] (pyRstrip raw) = true)
    (hi : ¬(1 ≤ countHashes (pyRstrip raw) ∧ countHashes (pyRstrip raw) ≤ 6)) :
    process_line s raw = some (listOrPara (flush_paragraph s) (pyRstrip raw)) := by
  simp [process_line, hb, hh, hi]

theorem process_line_other {s : MDState} {raw : List Char}
    (hb : (pyRstrip raw).all isPySpace = false)
    (hh : pyStartsWith ['#'] (pyRstrip raw) = false) :
    process_line s raw = some (listOrPara s (pyRstrip raw)) := by
  simp [process_line, hb, hh]

theorem listOrPara_para {s : MDState} {l : List Char}
    (h1 : pyStartsWith ['-', ' '] l = false)
    (h2 : pyStartsWith ['*', ' '] l = false) :
    listOrPara s l = { s with paragraph_lines := s.paragraph_lines ++ [l] } := by
  simp [listOrPara, h1, h2]

theorem pyStartsWith_single {c : Char} {l : List Char}
    (h : pyStartsWith [c] l = true) : ∃ t, l = c :: t := by
  cases l with
  | nil => simp [pyStartsWith] at h
  | cons a as =>
    simp only [pyStartsWith, Bool.and_eq_true, beq_iff_eq] at h
    exact ⟨as, by rw [h.1]⟩

/-- Every crash-free step lands in one of four shapes: the blank action,
a heading emission, the list-or-paragraph tail after a hash fall-through
(paragraph already flushed), or the plain list-or-paragraph tail. -/
theorem process_line_cases {s s' : MDState} {raw : List Char}
    (h : process_line s raw = some s') :
    s' = closeOl (closeUl (flush_paragraph s)) ∨
    (∃ i, s' = emitHeading i (pyRstrip raw) (flush_paragraph s)) ∨
    s' = listOrPara (flush_paragraph s) (pyRstrip raw) ∨
    s' = listOrPara s (pyRstrip raw) := by
  cases hb : (pyRstrip raw).all isPySpace with
  | true =>
    rw [process_line_blank hb] at h
    injection h with h
    exact Or.inl h.symm
  | false =>
    cases hh : pyStartsWith ['#'] (pyRstrip raw) with
    | false =>
      rw [process_line_other hb hh] at h
      injection h with h
      exact Or.inr (Or.inr (Or.inr h.symm))
    | true =>
      by_cases hi : 1 ≤ countHashes (pyRstrip raw) ∧ countHashes (pyRstrip raw) ≤ 6
      · cases hch : (pyRstrip raw).get? (countHashes (pyRstrip raw)) with
        | none =>
          rw [process_line_crash hb hh hi hch] at h
          exact absurd h (by simp)
        | some ch =>
          by_cases hsp : ch = ' '
          · subst hsp
            rw [process_line_hash_heading hb hh hi hch] at h
            injection h with h
            exact Or.inr (Or.inl ⟨_, h.symm⟩)
          · rw [process_line_hash_fall_nonspace hb hh hi hch hsp] at h
            injection h with h
            exact Or.inr (Or.inr (Or.inl h.symm))
      · rw [process_line_hash_fall_big hb hh hi] at h
        injection h with h
        exact Or.inr (Or.inr (Or.inl h.symm))

/-- A property preserved by every crash-free step holds after the whole
fold, given every line satisfies its side condition. -/
theorem foldlM_preserve (P : MDState → Prop) (Q : List Char → Prop)
    (step : ∀ s l s', Q l → P s → process_line s l = some s' → P s') :
    ∀ (lines : List (List Char)) (s0 sf : MDState), (∀ l ∈ lines, Q l) → P s0 →
      List.foldlM process_line s0 lines = some sf → P sf := by
  intro lines
  induction lines with
  | nil =>
    intro s0 sf _ hp h
    simp only [List.foldlM_nil, pure, Option.some.injEq] at h
    exact h ▸ hp
  | cons l ls ih =>
    intro s0 sf hq hp h
    rw [List.foldlM_cons] at h
    cases hpl : process_line s0 l with
    | none => rw [hpl] at h; simp at h
    | some s1 =>
      rw [hpl] at h
      simp only [Option.bind_eq_bind, Option.some_bind] at h
      exact ih s1 sf (fun x hx => hq x (List.mem_cons_of_mem l hx))
        (step s0 l s1 (hq l (List.mem_cons_self l ls)) hp hpl) h

/-- C1: the core is claimed total, but a line consisting solely of one to
six `#` characters makes `line[i]` read index `i == len(line)` (source
line 85), an uncaught `IndexError`: the embedded semantics yields `none`
on the single line `#`, while an ordinary line is converted fine. -/
theorem parse_markdown_not_total :
    parse_markdown [("#").toList] = none
  ∧ parse_markdown [] = some []
  ∧ parse_markdown [("a").toList] =
      some [("<p>").toList, ("a").toList, ("</p>").toList] := by
  exact ⟨by decide, by decide, by decide⟩

/-- C4: the heading rule — exactly `n` leading `#` with `1 ≤ n ≤ 6`
followed by a space gives `<hn>…</hn>`; seven `#` or a run followed by a
non-space falls through to paragraph text; but a run of one to six `#`
followed by nothing (the line `###`) crashes with `IndexError` (`none`)
instead of being treated as paragraph text as the claim states. -/
theorem heading_rule_evaluation :
    parse_markdown [("## hi").toList] = some [("<h2>hi</h2>").toList]
  ∧ parse_markdown [("###### six").toList] = some [("<h6>six</h6>").toList]
  ∧ parse_markdown [("####### x").toList] =
      some [("<p>").toList, ("####### x").toList, ("</p>").toList]
  ∧ parse_markdown [("#nospace").toList] =
      some [("<p>").toList, ("#nospace").toList, ("</p>").toList]
  ∧ parse_markdown [("###").toList] = none := by
  exact ⟨by decide, by decide, by decide, by decide, by decide⟩

/-- C2 counterexample: after the lines `- a` then `x` the machine holds
`in_ul = true` and a non-empty paragraph buffer at once, so "at most one
of {paragraph buffer non-empty, unordered list open, ordered list open}"
fails, as does "a paragraph-text line is only accumulated when no list
is open". -/
theorem block_context_not_exclusive_cex :
    (List.foldlM process_line initState [("- a").toList, ("x").toList]).map
      (fun s => s.in_ul && !s.paragraph_lines.isEmpty) = some true := by
  decide

/-- C2 amended: the two list flags are mutually exclusive at every
reachable point (a paragraph buffer, however, can be non-empty while a
list is open, since a paragraph-text line does not close an open list). -/
theorem lists_mutually_exclusive (lines : List (List Char)) (s : MDState)
    (h : List.foldlM process_line initState lines = some s) :
    ¬(s.in_ul = true ∧ s.in_ol = true) := by
  have step : ∀ s0 l s1, True → ¬(s0.in_ul = true ∧ s0.in_ol = true) →
      process_line s0 l = some s1 → ¬(s1.in_ul = true ∧ s1.in_ol = true) := by
    intro s0 l s1 _ hp hpl
    have hlp : ∀ s2 : MDState, ¬(s2.in_ul = true ∧ s2.in_ol = true) →
        ¬((listOrPara s2 (pyRstrip l)).in_ul = true ∧
          (listOrPara s2 (pyRstrip l)).in_ol = true) := by
      intro s2 h2
      simp only [listOrPara]
      split
      · split <;> intro hand <;>
          simpa [closeOl_in_ol] using hand.2
      · split
        · split <;> intro hand <;>
            simpa [closeUl_in_ul] using hand.1
        · exact h2
    rcases process_line_cases hpl with rfl | ⟨i, rfl⟩ | rfl | rfl
    · intro hand
      simpa [closeOl_in_ul, closeUl_in_ul] using hand.1
    · intro hand
      simpa [emitHeading_in_ul] using hand.1
    · exact hlp _ (by simpa [flush_in_ul, flush_in_ol] using hp)
    · exact hlp _ hp
  exact foldlM_preserve _ (fun _ => True) step lines initState s
    (fun _ _ => trivial) (by simp [initState]) h

theorem lists_mutually_exclusive_witness :
    ¬((MDState.mk [("<ul>").toList, ("<li>a</li>").toList, ("</ul>").toList,
        ("<ol>").toList, ("<li>b</li>").toList] false true []).in_ul = true ∧
      (MDState.mk [("<ul>").toList, ("<li>a</li>").toList, ("</ul>").toList,
        ("<ol>").toList, ("<li>b</li>").toList] false true []).in_ol = true) :=
  lists_mutually_exclusive [("- a").toList, ("* b").toList] _ (by decide)

/-- C9: a line starting with `#` that fails the heading test (run of 7+,
or the character after the run present but not a space) still flushes
the pending paragraph first and then starts a fresh buffer holding just
this line — it begins a new paragraph block instead of extending the
previous one. -/
theorem failed_heading_flushes (s : MDState) (raw : List Char)
    (hh : pyStartsWith ['#'] (pyRstrip raw) = true)
    (hfail : 6 < countHashes (pyRstrip raw) ∨
      ∃ ch, (pyRstrip raw).get? (countHashes (pyRstrip raw)) = some ch ∧ ch ≠ ' ') :
    process_line s raw =
      some { flush_paragraph s with paragraph_lines := [pyRstrip raw] } := by
  obtain ⟨t, ht⟩ := pyStartsWith_single hh
  have hb : (pyRstrip raw).all isPySpace = false := by
    rw [ht, List.all_cons]
    simp [isPySpace]
  have hd : pyStartsWith ['-', ' '] (pyRstrip raw) = false := by
    rw [ht]; exact pyStartsWith_cons_false (by decide)
  have hst : pyStartsWith ['*', ' '] (pyRstrip raw) = false := by
    rw [ht]; exact pyStartsWith_cons_false (by decide)
  by_cases hi : 1 ≤ countHashes (pyRstrip raw) ∧ countHashes (pyRstrip raw) ≤ 6
  · rcases hfail with h7 | ⟨ch, hch, hne⟩
    · omega
    · rw [process_line_hash_fall_nonspace hb hh hi hch hne,
        listOrPara_para hd hst]
      simp [flush_paragraph]
  · rw [process_line_hash_fall_big hb hh hi, listOrPara_para hd hst]
    simp [flush_paragraph]

theorem failed_heading_flushes_witness :
    process_line (MDState.mk [] false false [("x").toList]) (("#bad").toList) =
      some { flush_paragraph (MDState.mk [] false false [("x").toList]) with
        paragraph_lines := [pyRstrip (("#bad").toList)] } :=
  failed_heading_flushes (MDState.mk [] false false [("x").toList]) (("#bad").toList)
    (by decide) (Or.inr ⟨'b', by decide, by decide⟩)

theorem dropWhile_append_all {p : Char → Bool} {a b : List Char}
    (h : ∀ c ∈ a, p c = true) :
    (a ++ b).dropWhile p = b.dropWhile p := by
  induction a with
  | nil => simp
  | cons c cs ih =>
    rw [List.cons_append, List.dropWhile_cons, if_pos (h c (by simp))]
    exact ih (fun x hx => h x (List.mem_cons_of_mem c hx))

theorem pyRstrip_append_spaces {l ws : List Char}
    (h : ∀ c ∈ ws, isPySpace c = true) :
    pyRstrip (l ++ ws) = pyRstrip l := by
  unfold pyRstrip
  rw [List.reverse_append, dropWhile_append_all]
  intro c hc
  exact h c (List.mem_reverse.mp hc)

/-- C10: a line that is a list marker followed only by whitespace is
right-trimmed to the bare marker before classification, so it is
appended to the paragraph buffer, never emitted as an empty list item. -/
theorem bare_marker_paragraph (s : MDState) (m : Char) (ws : List Char)
    (hm : m = '-' ∨ m = '*') (hws : ∀ c ∈ ws, isPySpace c = true) :
    pyRstrip (m :: ws) = [m]
  ∧ process_line s (m :: ws) =
      some { s with paragraph_lines := s.paragraph_lines ++ [[m]] } := by
  have hr : pyRstrip (m :: ws) = [m] := by
    have he : (m :: ws) = [m] ++ ws := rfl
    rw [he, pyRstrip_append_spaces hws]
    rcases hm with rfl | rfl <;> rfl
  refine ⟨hr, ?_⟩
  have hb : (pyRstrip (m :: ws)).all isPySpace = false := by
    rw [hr]; rcases hm with rfl | rfl <;> rfl
  have hh : pyStartsWith ['#'] (pyRstrip (m :: ws)) = false := by
    rw [hr]; rcases hm with rfl | rfl <;> rfl
  have hd : pyStartsWith ['-', ' '] ([m] : List Char) = false := by
    rcases hm with rfl | rfl <;> rfl
  have hst : pyStartsWith ['*', ' '] ([m] : List Char) = false := by
    rcases hm with rfl | rfl <;> rfl
  rw [process_line_other hb hh, hr, listOrPara_para hd hst]

theorem bare_marker_paragraph_witness :
    pyRstrip ('-' :: [' ', ' ']) = ['-']
  ∧ process_line initState ('-' :: [' ', ' ']) =
      some { initState with
        paragraph_lines := initState.paragraph_lines ++ [['-']] } :=
  bare_marker_paragraph initState '-' [' ', ' '] (Or.inl rfl) (by decide)

/-- C3 counterexample: `hello` and `#bad` are both classified
paragraph-text (the `#` run of `#bad` is not followed by a space, so it
falls through), forming one maximal run, yet the output holds two
separate paragraph blocks — the `#`-led line flushed the buffer first. -/
theorem paragraph_run_single_block_cex :
    parse_markdown [("hello").toList, ("#bad").toList] =
      some [("<p>").toList, ("hello").toList, ("</p>").toList,
        ("<p>").toList, ("#bad").toList, ("</p>").toList]
  ∧ ([("<p>").toList, ("hello").toList, ("</p>").toList,
      ("<p>").toList, ("#bad").toList, ("</p>").toList] : List (List Char)).count
        (("<p>").toList) = 2 := by
  exact ⟨by decide, by decide⟩

/-- A line the classifier treats as plain paragraph text: non-blank after
right-trimming and starting with none of `#`, `- `, `* `. -/
def isParaLine (l : List Char) : Prop :=
  l.all isPySpace = false ∧ pyStartsWith ['#'] l = false ∧
    pyStartsWith ['-', ' '] l = false ∧ pyStartsWith ['*', ' '] l = false

instance isParaLine.decidable (l : List Char) : Decidable (isParaLine l) :=
  inferInstanceAs (Decidable (_ ∧ _ ∧ _ ∧ _))

theorem process_line_para {s : MDState} {raw : List Char}
    (h : isParaLine (pyRstrip raw)) :
    process_line s raw =
      some { s with paragraph_lines := s.paragraph_lines ++ [pyRstrip raw] } := by
  obtain ⟨h1, h2, h3, h4⟩ := h
  rw [process_line_other h1 h2, listOrPara_para h3 h4]

theorem foldlM_para (ps : List (List Char)) :
    ∀ s : MDState, (∀ l ∈ ps, isParaLine (pyRstrip l)) →
      List.foldlM process_line s ps =
        some { s with paragraph_lines := s.paragraph_lines ++ ps.map pyRstrip } := by
  induction ps with
  | nil => intro s _; simp [List.foldlM]
  | cons l ls ih =>
    intro s hall
    rw [List.foldlM_cons, process_line_para (hall l (by simp))]
    simp only [Option.bind_eq_bind, Option.some_bind]
    rw [ih _ (fun x hx => hall x (List.mem_cons_of_mem l hx))]
    simp [List.append_assoc]

/-- C3 amended: a maximal run of consecutive paragraph-text lines none of
which begins with `#` is emitted as exactly one paragraph block — a `<p>`
line, the first line's formatted text verbatim, one `<br/>`-prefixed
formatted line per later line, and a `</p>` line.  (A paragraph-text
line that begins with `#` — a failed heading — instead splits the run
into two blocks, as the counterexample shows.) -/
theorem paragraph_run_single_block (p : List Char) (rest : List (List Char))
    (hall : ∀ l ∈ p :: rest, isParaLine (pyRstrip l)) :
    parse_markdown (p :: rest) =
      some (("<p>").toList :: parse_formatting (pyRstrip p) ::
        rest.map (fun q => ("<br/>").toList ++ parse_formatting (pyRstrip q)) ++
          [("</p>").toList]) := by
  unfold parse_markdown
  rw [foldlM_para _ initState hall]
  simp [initState, flush_paragraph, closeUl, closeOl, pBlockLines, List.map_map,
    Function.comp]

theorem paragraph_run_single_block_witness :
    parse_markdown [("hello").toList, ("world").toList] =
      some [("<p>").toList, ("hello").toList, ("<br/>world").toList,
        ("</p>").toList] := by
  have h := paragraph_run_single_block (("hello").toList) [("world").toList]
    (by decide)
  exact h.trans (by decide)

/-! ## Tag balance (C5) -/

/-- The six structural open/close tag lines of the block machine. -/
def tagStrs : List (List Char) :=
  [("<p>").toList, ("</p>").toList, ("<ul>").toList,
   ("</ul>").toList, ("<ol>").toList, ("</ol>").toList]

theorem tagStrs_explicit : tagStrs =
    [['<', 'p', '>'], ['<', '/', 'p', '>'], ['<', 'u', 'l', '>'],
     ['<', '/', 'u', 'l', '>'], ['<', 'o', 'l', '>'], ['<', '/', 'o', 'l', '>']] := rfl

theorem cons2_ne {a b c d : Char} {x y : List Char} (h : b ≠ d) :
    a :: b :: x ≠ c :: d :: y := by
  intro he
  injection he with h1 h2
  injection h2 with h3 h4
  exact h h3

theorem second_char_not_tag {b : Char} {y : List Char}
    (h1 : b ≠ 'p') (h2 : b ≠ '/') (h3 : b ≠ 'u') (h4 : b ≠ 'o') :
    ('<' :: b :: y) ∉ tagStrs := by
  intro hm
  rw [tagStrs_explicit] at hm
  simp only [List.mem_cons, List.not_mem_nil, or_false] at hm
  rcases hm with h | h | h | h | h | h
  · exact cons2_ne h1 h
  · exact cons2_ne h2 h
  · exact cons2_ne h3 h
  · exact cons2_ne h2 h
  · exact cons2_ne h4 h
  · exact cons2_ne h2 h

theorem br_line_not_tag (y : List Char) : (("<br/>").toList ++ y) ∉ tagStrs := by
  have e : ("<br/>").toList ++ y = '<' :: 'b' :: (['r', '/', '>'] ++ y) := rfl
  rw [e]
  exact second_char_not_tag (by decide) (by decide) (by decide) (by decide)

theorem li_line_not_tag (c : List Char) : liLine c ∉ tagStrs := by
  have e : liLine c = '<' :: 'l' :: ('i' :: '>' :: (c ++ ("</li>").toList)) := rfl
  rw [e]
  exact second_char_not_tag (by decide) (by decide) (by decide) (by decide)

theorem hTag_line_not_tag (i : Nat) (c : List Char) : hTagLine i c ∉ tagStrs := by
  have e : hTagLine i c = '<' :: 'h' ::
      ((((((Nat.repr i).toList ++ (">").toList) ++ c) ++ ("</h").toList) ++
        (Nat.repr i).toList) ++ (">").toList) := rfl
  rw [e]
  exact second_char_not_tag (by decide) (by decide) (by decide) (by decide)

theorem count_eq_zero_of_forall_ne {t : List Char} {L : List (List Char)}
    (h : ∀ x ∈ L, x ≠ t) : L.count t = 0 :=
  List.count_eq_zero.mpr (fun hm => (h t hm) rfl)

theorem count_append_single (h : List (List Char)) (x t : List Char) :
    (h ++ [x]).count t = h.count t + (if x = t then 1 else 0) := by
  rw [List.count_append]
  congr 1
  by_cases he : x = t
  · subst he; simp
  · rw [if_neg he]
    exact count_eq_zero_of_forall_ne (by simpa using he)

/-- The C5 machine invariant: each open-tag count exceeds its close-tag
count by exactly the flag, paragraph tags are even, and every buffered
line's formatted text is none of the six tag lines. -/
def tagsBalanced (s : MDState) : Prop :=
  s.html_lines.count (("<ul>").toList) =
      s.html_lines.count (("</ul>").toList) + s.in_ul.toNat
  ∧ s.html_lines.count (("<ol>").toList) =
      s.html_lines.count (("</ol>").toList) + s.in_ol.toNat
  ∧ s.html_lines.count (("<p>").toList) = s.html_lines.count (("</p>").toList)
  ∧ ∀ x ∈ s.paragraph_lines, parse_formatting x ∉ tagStrs

theorem pBlock_count_all {buf : List (List Char)}
    (hb : ∀ x ∈ buf, parse_formatting x ∉ tagStrs) :
    (pBlockLines buf).count (("<ul>").toList) = 0
  ∧ (pBlockLines buf).count (("</ul>").toList) = 0
  ∧ (pBlockLines buf).count (("<ol>").toList) = 0
  ∧ (pBlockLines buf).count (("</ol>").toList) = 0
  ∧ (pBlockLines buf).count (("<p>").toList) =
      (pBlockLines buf).count (("</p>").toList) := by
  cases buf with
  | nil => simp [pBlockLines]
  | cons p ps =>
    have hfmt : parse_formatting p ∉ tagStrs := hb p (by simp)
    have hmap : ∀ x ∈ ps.map (fun q => ("<br/>").toList ++ parse_formatting q),
        x ∉ tagStrs := by
      intro x hx
      obtain ⟨q, _, rfl⟩ := List.mem_map.mp hx
      exact br_line_not_tag _
    have key : ∀ t : List Char, t ∈ tagStrs → t ≠ ("<p>").toList →
        t ≠ ("</p>").toList → (pBlockLines (p :: ps)).count t = 0 := by
      intro t htm hne1 hne2
      apply count_eq_zero_of_forall_ne
      intro x hx
      simp only [pBlockLines, List.mem_cons, List.mem_append,
        List.mem_singleton, List.not_mem_nil, or_false] at hx
      rcases hx with (rfl | rfl | hx) | rfl
      · exact fun he => hne1 he.symm
      · exact fun he => hfmt (he.symm ▸ htm)
      · exact fun he => hmap x hx (he.symm ▸ htm)
      · exact fun he => hne2 he.symm
    have hppc : (pBlockLines (p :: ps)).count (("<p>").toList) = 1 ∧
        (pBlockLines (p :: ps)).count (("</p>").toList) = 1 := by
      have hfz : ∀ t : List Char, t ∈ tagStrs →
          (ps.map (fun q => ("<br/>").toList ++ parse_formatting q)).count t = 0 := by
        intro t htm
        exact count_eq_zero_of_forall_ne
          (fun x hx he => hmap x hx (he.symm ▸ htm))
      have hfp : ("<p>").toList ≠ parse_formatting p :=
        fun he => hfmt (he ▸ (by decide : (("<p>").toList) ∈ tagStrs))
      have hfq : ("</p>").toList ≠ parse_formatting p :=
        fun he => hfmt (he ▸ (by decide : (("</p>").toList) ∈ tagStrs))
      constructor
      · show (("<p>").toList :: parse_formatting p ::
          (ps.map (fun q => ("<br/>").toList ++ parse_formatting q) ++
            [("</p>").toList])).count (("<p>").toList) = 1
        rw [List.count_cons_self, List.count_cons_of_ne hfp, List.count_append,
          hfz _ (by decide)]
        decide
      · show (("<p>").toList :: parse_formatting p ::
          (ps.map (fun q => ("<br/>").toList ++ parse_formatting q) ++
            [("</p>").toList])).count (("</p>").toList) = 1
        rw [List.count_cons_of_ne (by decide), List.count_cons_of_ne hfq,
          List.count_append, hfz _ (by decide)]
        decide
    exact ⟨key _ (by decide) (by decide) (by decide),
      key _ (by decide) (by decide) (by decide),
      key _ (by decide) (by decide) (by decide),
      key _ (by decide) (by decide) (by decide),
      by rw [hppc.1, hppc.2]⟩

theorem flush_tagsBalanced {s : MDState} (h : tagsBalanced s) :
    tagsBalanced (flush_paragraph s) := by
  obtain ⟨hul, hol, hp, hb⟩ := h
  obtain ⟨z1, z2, z3, z4, hpq⟩ := pBlock_count_all hb
  have e : (flush_paragraph s).html_lines =
      s.html_lines ++ pBlockLines s.paragraph_lines := rfl
  refine ⟨?_, ?_, ?_, ?_⟩
  · rw [e, List.count_append, List.count_append, z1, z2, flush_in_ul]
    omega
  · rw [e, List.count_append, List.count_append, z3, z4, flush_in_ol]
    omega
  · rw [e, List.count_append, List.count_append, hp, hpq]
  · intro x hx
    rw [flush_para] at hx
    exact absurd hx (List.not_mem_nil x)

theorem closeUl_tagsBalanced {s : MDState} (h : tagsBalanced s) :
    tagsBalanced (closeUl s) := by
  obtain ⟨hul, hol, hp, hb⟩ := h
  unfold closeUl
  split
  · rename_i hin
    rw [hin] at hul
    refine ⟨?_, ?_, ?_, hb⟩
    · show (s.html_lines ++ [("</ul>").toList]).count (("<ul>").toList) =
        (s.html_lines ++ [("</ul>").toList]).count (("</ul>").toList) +
          Bool.toNat false
      rw [count_append_single, count_append_single, if_neg (by decide),
        if_pos rfl]
      simp only [Bool.toNat_true] at hul
      simp only [Bool.toNat_false]
      omega
    · show (s.html_lines ++ [("</ul>").toList]).count (("<ol>").toList) =
        (s.html_lines ++ [("</ul>").toList]).count (("</ol>").toList) + s.in_ol.toNat
      rw [count_append_single, count_append_single, if_neg (by decide),
        if_neg (by decide)]
      omega
    · show (s.html_lines ++ [("</ul>").toList]).count (("<p>").toList) =
        (s.html_lines ++ [("</ul>").toList]).count (("</p>").toList)
      rw [count_append_single, count_append_single, if_neg (by decide),
        if_neg (by decide)]
      omega
  · exact ⟨hul, hol, hp, hb⟩

theorem closeOl_tagsBalanced {s : MDState} (h : tagsBalanced s) :
    tagsBalanced (closeOl s) := by
  obtain ⟨hul, hol, hp, hb⟩ := h
  unfold closeOl
  split
  · rename_i hin
    rw [hin] at hol
    refine ⟨?_, ?_, ?_, hb⟩
    · show (s.html_lines ++ [("</ol>").toList]).count (("<ul>").toList) =
        (s.html_lines ++ [("</ol>").toList]).count (("</ul>").toList) + s.in_ul.toNat
      rw [count_append_single, count_append_single, if_neg (by decide),
        if_neg (by decide)]
      omega
    · show (s.html_lines ++ [("</ol>").toList]).count (("<ol>").toList) =
        (s.html_lines ++ [("</ol>").toList]).count (("</ol>").toList) +
          Bool.toNat false
      rw [count_append_single, count_append_single, if_neg (by decide),
        if_pos rfl]
      simp only [Bool.toNat_true] at hol
      simp only [Bool.toNat_false]
      omega
    · show (s.html_lines ++ [("</ol>").toList]).count (("<p>").toList) =
        (s.html_lines ++ [("</ol>").toList]).count (("</p>").toList)
      rw [count_append_single, count_append_single, if_neg (by decide),
        if_neg (by decide)]
      omega
  · exact ⟨hul, hol, hp, hb⟩

theorem emitHeading_tagsBalanced {s : MDState} (h : tagsBalanced s)
    (i : Nat) (l : List Char) : tagsBalanced (emitHeading i l s) := by
  obtain ⟨hul, hol, hp, hb⟩ := closeOl_tagsBalanced (closeUl_tagsBalanced h)
  have hnt : ∀ t ∈ tagStrs,
      ¬(hTagLine i (parse_formatting (pyStrip (l.drop (i + 1)))) = t) :=
    fun t ht he => hTag_line_not_tag i _ (he.symm ▸ ht)
  refine ⟨?_, ?_, ?_, hb⟩
  · show ((closeOl (closeUl s)).html_lines ++ [_]).count (("<ul>").toList) =
      ((closeOl (closeUl s)).html_lines ++ [_]).count (("</ul>").toList) +
        (closeOl (closeUl s)).in_ul.toNat
    rw [count_append_single, count_append_single, if_neg (hnt _ (by decide)),
      if_neg (hnt _ (by decide))]
    omega
  · show ((closeOl (closeUl s)).html_lines ++ [_]).count (("<ol>").toList) =
      ((closeOl (closeUl s)).html_lines ++ [_]).count (("</ol>").toList) +
        (closeOl (closeUl s)).in_ol.toNat
    rw [count_append_single, count_append_single, if_neg (hnt _ (by decide)),
      if_neg (hnt _ (by decide))]
    omega
  · show ((closeOl (closeUl s)).html_lines ++ [_]).count (("<p>").toList) =
      ((closeOl (closeUl s)).html_lines ++ [_]).count (("</p>").toList)
    rw [count_append_single, count_append_single, if_neg (hnt _ (by decide)),
      if_neg (hnt _ (by decide))]
    omega

theorem listOrPara_tagsBalanced {s : MDState} {l : List Char}
    (h : tagsBalanced s) (hl : parse_formatting l ∉ tagStrs) :
    tagsBalanced (listOrPara s l) := by
  have hli : ∀ (c : List Char), ∀ t ∈ tagStrs, ¬(liLine c = t) :=
    fun c t ht he => li_line_not_tag c (he.symm ▸ ht)
  simp only [listOrPara]
  split
  · obtain ⟨hul, hol, hp, hb⟩ := closeOl_tagsBalanced (flush_tagsBalanced h)
    split
    · refine ⟨?_, ?_, ?_, hb⟩
      · show ((closeOl (flush_paragraph s)).html_lines ++ [_]).count (("<ul>").toList) =
          ((closeOl (flush_paragraph s)).html_lines ++ [_]).count (("</ul>").toList) +
            (closeOl (flush_paragraph s)).in_ul.toNat
        rw [count_append_single, count_append_single,
          if_neg (hli _ _ (by decide)), if_neg (hli _ _ (by decide))]
        omega
      · show ((closeOl (flush_paragraph s)).html_lines ++ [_]).count (("<ol>").toList) =
          ((closeOl (flush_paragraph s)).html_lines ++ [_]).count (("</ol>").toList) +
            (closeOl (flush_paragraph s)).in_ol.toNat
        rw [count_append_single, count_append_single,
          if_neg (hli _ _ (by decide)), if_neg (hli _ _ (by decide))]
        omega
      · show ((closeOl (flush_paragraph s)).html_lines ++ [_]).count (("<p>").toList) =
          ((closeOl (flush_paragraph s)).html_lines ++ [_]).count (("</p>").toList)
        rw [count_append_single, count_append_single,
          if_neg (hli _ _ (by decide)), if_neg (hli _ _ (by decide))]
        omega
    · rename_i hin
      have hin' : (closeOl (flush_paragraph s)).in_ul = false := by
        cases hq : (closeOl (flush_paragraph s)).in_ul
        · rfl
        · exact absurd hq hin
      rw [hin'] at hul
      refine ⟨?_, ?_, ?_, hb⟩
      · show (((closeOl (flush_paragraph s)).html_lines ++ [("<ul>").toList]) ++
            [_]).count (("<ul>").toList) =
          (((closeOl (flush_paragraph s)).html_lines ++ [("<ul>").toList]) ++
            [_]).count (("</ul>").toList) + Bool.toNat true
        rw [count_append_single, count_append_single, count_append_single,
          count_append_single, if_neg (hli _ _ (by decide)),
          if_neg (hli _ _ (by decide)), if_pos rfl, if_neg (by decide)]
        simp only [Bool.toNat_false] at hul
        simp only [Bool.toNat_true]
        omega
      · show (((closeOl (flush_paragraph s)).html_lines ++ [("<ul>").toList]) ++
            [_]).count (("<ol>").toList) =
          (((closeOl (flush_paragraph s)).html_lines ++ [("<ul>").toList]) ++
            [_]).count (("</ol>").toList) + (closeOl (flush_paragraph s)).in_ol.toNat
        rw [count_append_single, count_append_single, count_append_single,
          count_append_single, if_neg (hli _ _ (by decide)),
          if_neg (hli _ _ (by decide)), if_neg (by decide), if_neg (by decide)]
        omega
      · show (((closeOl (flush_paragraph s)).html_lines ++ [("<ul>").toList]) ++
            [_]).count (("<p>").toList) =
          (((closeOl (flush_paragraph s)).html_lines ++ [("<ul>").toList]) ++
            [_]).count (("</p>").toList)
        rw [count_append_single, count_append_single, count_append_single,
          count_append_single, if_neg (hli _ _ (by decide)),
          if_neg (hli _ _ (by decide)), if_neg (by decide), if_neg (by decide)]
        omega
  · split
    · obtain ⟨hul, hol, hp, hb⟩ := closeUl_tagsBalanced (flush_tagsBalanced h)
      split
      · refine ⟨?_, ?_, ?_, hb⟩
        · show ((closeUl (flush_paragraph s)).html_lines ++ [_]).count (("<ul>").toList) =
            ((closeUl (flush_paragraph s)).html_lines ++ [_]).count (("</ul>").toList) +
              (closeUl (flush_paragraph s)).in_ul.toNat
          rw [count_append_single, count_append_single,
            if_neg (hli _ _ (by decide)), if_neg (hli _ _ (by decide))]
          omega
        · show ((closeUl (flush_paragraph s)).html_lines ++ [_]).count (("<ol>").toList) =
            ((closeUl (flush_paragraph s)).html_lines ++ [_]).count (("</ol>").toList) +
              (closeUl (flush_paragraph s)).in_ol.toNat
          rw [count_append_single, count_append_single,
            if_neg (hli _ _ (by decide)), if_neg (hli _ _ (by decide))]
          omega
        · show ((closeUl (flush_paragraph s)).html_lines ++ [_]).count (("<p>").toList) =
            ((closeUl (flush_paragraph s)).html_lines ++ [_]).count (("</p>").toList)
          rw [count_append_single, count_append_single,
            if_neg (hli _ _ (by decide)), if_neg (hli _ _ (by decide))]
          omega
      · rename_i hin
        have hin' : (closeUl (flush_paragraph s)).in_ol = false := by
          cases hq : (closeUl (flush_paragraph s)).in_ol
          · rfl
          · exact absurd hq hin
        rw [hin'] at hol
        refine ⟨?_, ?_, ?_, hb⟩
        · show (((closeUl (flush_paragraph s)).html_lines ++ [("<ol>").toList]) ++
              [_]).count (("<ul>").toList) =
            (((closeUl (flush_paragraph s)).html_lines ++ [("<ol>").toList]) ++
              [_]).count (("</ul>").toList) + (closeUl (flush_paragraph s)).in_ul.toNat
          rw [count_append_single, count_append_single, count_append_single,
            count_append_single, if_neg (hli _ _ (by decide)),
            if_neg (hli _ _ (by decide)), if_neg (by decide), if_neg (by decide)]
          omega
        · show (((closeUl (flush_paragraph s)).html_lines ++ [("<ol>").toList]) ++
              [_]).count (("<ol>").toList) =
            (((closeUl (flush_paragraph s)).html_lines ++ [("<ol>").toList]) ++
              [_]).count (("</ol>").toList) + Bool.toNat true
          rw [count_append_single, count_append_single, count_append_single,
            count_append_single, if_neg (hli _ _ (by decide)),
            if_neg (hli _ _ (by decide)), if_pos rfl, if_neg (by decide)]
          simp only [Bool.toNat_false] at hol
          simp only [Bool.toNat_true]
          omega
        · show (((closeUl (flush_paragraph s)).html_lines ++ [("<ol>").toList]) ++
              [_]).count (("<p>").toList) =
            (((closeUl (flush_paragraph s)).html_lines ++ [("<ol>").toList]) ++
              [_]).count (("</p>").toList)
          rw [count_append_single, count_append_single, count_append_single,
            count_append_single, if_neg (hli _ _ (by decide)),
            if_neg (hli _ _ (by decide)), if_neg (by decide), if_neg (by decide)]
          omega
    · obtain ⟨hul, hol, hp, hb⟩ := h
      refine ⟨hul, hol, hp, ?_⟩
      intro x hx
      rcases List.mem_append.mp hx with hx | hx
      · exact hb x hx
      · rw [List.mem_singleton] at hx
        subst hx
        exact hl

theorem process_line_tagsBalanced {s s' : MDState} {raw : List Char}
    (hq : parse_formatting (pyRstrip raw) ∉ tagStrs)
    (h : tagsBalanced s) (hp : process_line s raw = some s') :
    tagsBalanced s' := by
  rcases process_line_cases hp with rfl | ⟨i, rfl⟩ | rfl | rfl
  · exact closeOl_tagsBalanced (closeUl_tagsBalanced (flush_tagsBalanced h))
  · exact emitHeading_tagsBalanced (flush_tagsBalanced h) i _
  · exact listOrPara_tagsBalanced (flush_tagsBalanced h) hq
  · exact listOrPara_tagsBalanced h hq

/-- C5: on every crash-free input whose paragraph lines do not themselves
format to one of the six tag strings, the output has as many `<ul>` lines
as `</ul>` lines, as many `<ol>` as `</ol>`, and as many `<p>` as `</p>`
— every opened list or paragraph is closed, never left dangling. -/
theorem list_paragraph_tags_balanced (lines out : List (List Char))
    (hq : ∀ l ∈ lines, parse_formatting (pyRstrip l) ∉ tagStrs)
    (h : parse_markdown lines = some out) :
    out.count (("<ul>").toList) = out.count (("</ul>").toList)
  ∧ out.count (("<ol>").toList) = out.count (("</ol>").toList)
  ∧ out.count (("<p>").toList) = out.count (("</p>").toList) := by
  unfold parse_markdown at h
  cases hf : List.foldlM process_line initState lines with
  | none => rw [hf] at h; exact absurd h (by simp)
  | some sf =>
    rw [hf] at h
    simp only [Option.some.injEq] at h
    have hbal : tagsBalanced sf :=
      foldlM_preserve tagsBalanced
        (fun l => parse_formatting (pyRstrip l) ∉ tagStrs)
        (fun s l s' hql hPs hpl => process_line_tagsBalanced hql hPs hpl)
        lines initState sf hq ⟨rfl, rfl, rfl, by simp [initState]⟩ hf
    obtain ⟨hul, hol, hp, _⟩ :=
      closeOl_tagsBalanced (closeUl_tagsBalanced (flush_tagsBalanced hbal))
    rw [closeOl_in_ul, closeUl_in_ul] at hul
    rw [closeOl_in_ol] at hol
    rw [← h]
    simp only [Bool.toNat_false, Nat.add_zero] at hul hol
    exact ⟨hul, hol, hp⟩

theorem list_paragraph_tags_balanced_witness :
    (∀ l ∈ [("- a").toList, ("* b").toList],
      parse_formatting (pyRstrip l) ∉ tagStrs)
  ∧ parse_markdown [("- a").toList, ("* b").toList] =
      some [("<ul>").toList, ("<li>a</li>").toList, ("</ul>").toList,
        ("<ol>").toList, ("<li>b</li>").toList, ("</ol>").toList]
  ∧ ([("<ul>").toList, ("<li>a</li>").toList, ("</ul>").toList,
      ("<ol>").toList, ("<li>b</li>").toList, ("</ol>").toList] :
        List (List Char)).count (("<ul>").toList) =
      ([("<ul>").toList, ("<li>a</li>").toList, ("</ul>").toList,
        ("<ol>").toList, ("<li>b</li>").toList, ("</ol>").toList] :
          List (List Char)).count (("</ul>").toList) :=
  ⟨by decide, by decide,
    (list_paragraph_tags_balanced [("- a").toList, ("* b").toList]
      [("<ul>").toList, ("<li>a</li>").toList, ("</ul>").toList,
        ("<ol>").toList, ("<li>b</li>").toList, ("</ol>").toList]
      (by decide) (by decide)).1⟩
